import Mathlib

/-!
Verification of the EasyLSB steganography codec (EasyLSB.cpp / EasyLSB.h).

The development embeds the bit-plane traversal and framing codec as pure
Lean functions: the pixel grid is a row-major list of rows of RGB pixels,
the channel accessor is a record of (row, col, wraparounds, color), and
encode/decode thread the grid and accessor through the same loops the C++
source runs.  Machine integers are modelled as Nat with explicit mod-2^w
truncation where the C++ types truncate (uint8_t channel values, the
uint16_t length accumulator).
-/

set_option maxHeartbeats 1600000
set_option maxRecDepth 10000

namespace EasyLSB

/-- The three color channels of a pixel (enum class Color). -/
inductive Color where
  | RED
  | GREEN
  | BLUE
deriving DecidableEq

/-- One pixel: three independently mutable 8-bit channel values. -/
structure Pixel where
  red : Nat
  green : Nat
  blue : Nat
deriving DecidableEq

/-- The pixel grid: a row-major list of rows (BitmapParser's pixels()). -/
abbrev Grid := List (List Pixel)

/-- The channel accessor's state: current pixel coordinates, the number of
full-image wraparounds completed, and the color channel addressed. -/
structure ChannelAccessor where
  row : Nat
  col : Nat
  wraparounds : Nat
  color : Color
deriving DecidableEq

def BITS_PER_BYTE : Nat := 8

def NUM_LENGTH_BITS : Nat := 16

def MAX_MSG_LENGTH : Nat := 65535

/-- The image width, as the C++ reads it: pixels()[0].size(). -/
def width (g : Grid) : Nat := (g.headD []).length

/-- The image height, as the C++ reads it: pixels().size(). -/
def height (g : Grid) : Nat := g.length

/-- Read one named channel of a pixel. -/
def Pixel.channel (p : Pixel) : Color → Nat
  | Color.RED => p.red
  | Color.GREEN => p.green
  | Color.BLUE => p.blue

/-- Overwrite one named channel of a pixel. -/
def Pixel.setChannel (p : Pixel) : Color → Nat → Pixel
  | Color.RED, v => { p with red := v }
  | Color.GREEN, v => { p with green := v }
  | Color.BLUE, v => { p with blue := v }

/-- ChannelAccessor::get_channel: the full 8-bit value of the addressed
channel (a read through the accessor's pointer). -/
def get_channel (g : Grid) (c : ChannelAccessor) : Nat :=
  ((g.getD c.row []).getD c.col (Pixel.mk 0 0 0)).channel c.color

/-- ChannelAccessor::replace_channel: overwrite the addressed channel.  The
C++ parameter is uint8_t, so the stored value is the argument mod 256. -/
def replace_channel (g : Grid) (c : ChannelAccessor) (new_value : Nat) : Grid :=
  g.set c.row ((g.getD c.row []).set c.col
    (((g.getD c.row []).getD c.col (Pixel.mk 0 0 0)).setChannel c.color (new_value % 256)))

/-- ChannelAccessor::wrap_mask: the mask that clears the bit addressed at a
given wraparound count; 0 outside 0..7 (the fall-through return). -/
def wrap_mask : Nat → Nat
  | 0 => 0b11111110
  | 1 => 0b11111101
  | 2 => 0b11111011
  | 3 => 0b11110111
  | 4 => 0b11101111
  | 5 => 0b11011111
  | 6 => 0b10111111
  | 7 => 0b01111111
  | _ => 0

/-- ChannelAccessor::bitmask: the mask that isolates the bit addressed at a
given wraparound count; 0 outside 0..7 (the fall-through return). -/
def bitmask : Nat → Nat
  | 0 => 0b00000001
  | 1 => 0b00000010
  | 2 => 0b00000100
  | 3 => 0b00001000
  | 4 => 0b00010000
  | 5 => 0b00100000
  | 6 => 0b01000000
  | 7 => 0b10000000
  | _ => 0

/-- ChannelAccessor::next_channel: red to green to blue within a pixel, then
next column, then next row, and at the bottom-right pixel wrap to (0,0) and
count one more wraparound.  Only the grid's dimensions are consulted. -/
def next_channel (g : Grid) (c : ChannelAccessor) : ChannelAccessor :=
  match c.color with
  | Color.RED => { c with color := Color.GREEN }
  | Color.GREEN => { c with color := Color.BLUE }
  | Color.BLUE =>
      if c.col < width g - 1 then
        { c with col := c.col + 1, color := Color.RED }
      else if c.row < height g - 1 then
        { c with row := c.row + 1, col := 0, color := Color.RED }
      else
        { c with row := 0, col := 0, wraparounds := c.wraparounds + 1, color := Color.RED }

/-- The freshly constructed accessor: red channel of row 0, col 0. -/
def ChannelAccessor.init : ChannelAccessor := ⟨0, 0, 0, Color.RED⟩

/-- EasyLSB::check_size, run by both constructors: none when the checks
pass, some error text when a runtime_error is thrown.  The available-bit
count the source compares against is width * height * BITS_PER_BYTE. -/
def check_size (msgLen W H : Nat) : Option String :=
  if msgLen * BITS_PER_BYTE + NUM_LENGTH_BITS > W * H * BITS_PER_BYTE then
    some "Image is not large enough to hold message!"
  else if msgLen > MAX_MSG_LENGTH then
    some "Message length exceeds maximum of 65535 chars!"
  else
    none

/-- The first loop of EasyLSB::encode, one iteration per remaining shift
(shift runs from NUM_LENGTH_BITS - 1 down to 0): write one bit of the
16-bit length field.  The encoding bit (len >> shift) & 1 is OR-ed in
without any further shift. -/
def encodeLenBits (len : Nat) (g : Grid) (c : ChannelAccessor) :
    List Nat → Grid × ChannelAccessor
  | [] => (g, c)
  | shift :: rest =>
      let encoding_bit := len >>> shift &&& 1
      let g' := replace_channel g c
        (get_channel g c &&& wrap_mask c.wraparounds ||| encoding_bit)
      encodeLenBits len g' (next_channel g' c) rest

/-- The inner loop of EasyLSB::encode for one message char: the encoding bit
((letter >> shift) & 1) << wraparounds is OR-ed in after the target bit is
cleared with wrap_mask. -/
def encodeMsgBits (letter : Nat) (g : Grid) (c : ChannelAccessor) :
    List Nat → Grid × ChannelAccessor
  | [] => (g, c)
  | shift :: rest =>
      let encoding_bit := (letter >>> shift &&& 1) <<< c.wraparounds
      let g' := replace_channel g c
        (get_channel g c &&& wrap_mask c.wraparounds ||| encoding_bit)
      encodeMsgBits letter g' (next_channel g' c) rest

/-- The outer loop of EasyLSB::encode over the message chars. -/
def encodeMsg (g : Grid) (c : ChannelAccessor) : List Nat → Grid × ChannelAccessor
  | [] => (g, c)
  | letter :: rest =>
      let r := encodeMsgBits letter g c (List.range BITS_PER_BYTE).reverse
      encodeMsg r.1 r.2 rest

/-- EasyLSB::encode on a message given as its list of byte values: write the
16-bit length field (uint16_t len = msg.length(), hence mod 2^16), then
every char MSB-first.  Returns the mutated grid and the final accessor. -/
def encode (msg : List Nat) (g : Grid) : Grid × ChannelAccessor :=
  let len := msg.length % 65536
  let r := encodeLenBits len g ChannelAccessor.init (List.range NUM_LENGTH_BITS).reverse
  encodeMsg r.1 r.2 msg

/-- The encode-mode constructor followed by encode(): check_size runs first
and a failure surfaces as an error before any channel is touched. -/
def encodeRun (msg : List Nat) (g : Grid) : Except String (Grid × ChannelAccessor) :=
  match check_size msg.length (width g) (height g) with
  | some e => Except.error e
  | none => Except.ok (encode msg g)

/-- The first loop of EasyLSB::decode, one iteration per index i in the
list: isolate the addressed bit with bitmask, shift it left by 15 - i into
the uint16_t accumulator (hence mod 2^16), OR it in, advance.  The grid is
threaded through unchanged: the loop only reads channels. -/
def decodeLenBits (g : Grid) (c : ChannelAccessor) (len : Nat) :
    List Nat → Nat × Grid × ChannelAccessor
  | [] => (len, g, c)
  | i :: rest =>
      let bit := get_channel g c &&& bitmask c.wraparounds
      let bit := bit <<< (NUM_LENGTH_BITS - 1 - i) % 65536
      decodeLenBits g (next_channel g c) (len ||| bit) rest

/-- The inner loop of EasyLSB::decode for one char: isolate the addressed
bit, normalize it to bit 0 by shifting right by wraparounds, place it at
7 - j in the unsigned char accumulator (hence mod 2^8), OR it in, advance. -/
def decodeByteBits (g : Grid) (c : ChannelAccessor) (char_byte : Nat) :
    List Nat → Nat × Grid × ChannelAccessor
  | [] => (char_byte, g, c)
  | j :: rest =>
      let bit := (get_channel g c &&& bitmask c.wraparounds) >>> c.wraparounds
      let bit := bit <<< (BITS_PER_BYTE - 1 - j) % 256
      decodeByteBits g (next_channel g c) (char_byte ||| bit) rest

/-- The outer loop of EasyLSB::decode: assemble one char per remaining
count and append it to the recovered message. -/
def decodeMsgChars (g : Grid) (c : ChannelAccessor) (msg : List Nat) :
    Nat → List Nat × Grid × ChannelAccessor
  | 0 => (msg, g, c)
  | n + 1 =>
      let r := decodeByteBits g c 0 (List.range BITS_PER_BYTE)
      decodeMsgChars r.2.1 r.2.2 (msg ++ [r.1]) n

/-- EasyLSB::decode: read the 16-bit length field, then assemble exactly
that many chars.  Returns the recovered message together with the grid and
accessor the run ends with. -/
def decode (g : Grid) : List Nat × Grid × ChannelAccessor :=
  let r := decodeLenBits g ChannelAccessor.init 0 (List.range NUM_LENGTH_BITS)
  decodeMsgChars r.2.1 r.2.2 [] r.1

/-- The decode-mode constructor (msg starts empty, so check_size runs with
length 0) followed by decode(). -/
def decodeRun (g : Grid) : Except String (List Nat × Grid × ChannelAccessor) :=
  match check_size 0 (width g) (height g) with
  | some e => Except.error e
  | none => Except.ok (decode g)

/-! Abstraction layer: the traversal flattened to channel indices. -/

/-- The rank of a color in the red, green, blue traversal order. -/
def colorIdx : Color → Nat
  | Color.RED => 0
  | Color.GREEN => 1
  | Color.BLUE => 2

/-- The color of a given rank (0 red, 1 green, otherwise blue). -/
def colorOf : Nat → Color
  | 0 => Color.RED
  | 1 => Color.GREEN
  | _ => Color.BLUE

/-- The flat channel index an accessor addresses within one wraparound. -/
def idxOf (W : Nat) (c : ChannelAccessor) : Nat :=
  3 * (c.row * W + c.col) + colorIdx c.color

/-- The accessor state reached after k advances from the fresh accessor on a
W-by-H image: channel k mod 3WH of wraparound k div 3WH. -/
def cursorAt (W H k : Nat) : ChannelAccessor :=
  ⟨k % (3 * (W * H)) / 3 / W, k % (3 * (W * H)) / 3 % W,
    k / (3 * (W * H)), colorOf (k % (3 * (W * H)) % 3)⟩

/-- A well-formed W-by-H grid: H rows, each of exactly W pixels. -/
def wfGrid (g : Grid) (W H : Nat) : Prop :=
  g.length = H ∧ ∀ row ∈ g, row.length = W

/-- Every channel value of the grid fits in a byte (uint8_t storage). -/
def byteGrid (g : Grid) : Prop :=
  ∀ row ∈ g, ∀ p ∈ row, p.red < 256 ∧ p.green < 256 ∧ p.blue < 256

/-- The channel values of one row in traversal order. -/
def rowChannels : List Pixel → List Nat
  | [] => []
  | p :: ps => p.red :: p.green :: p.blue :: rowChannels ps

/-- All channel values of the grid in traversal order. -/
def flatten : Grid → List Nat
  | [] => []
  | row :: rest => rowChannels row ++ flatten rest

/-- The p-th channel value in traversal order (0 out of range). -/
def chanAt (g : Grid) (p : Nat) : Nat := (flatten g).getD p 0

/-- One channel overwrite described positionally: clear with mask, OR in
orBits, store mod 256 at flat position pos. -/
structure BitWrite where
  pos : Nat
  mask : Nat
  orBits : Nat
deriving DecidableEq

/-- Apply one positional channel overwrite to the flat channel list. -/
def applyWrite (vs : List Nat) (w : BitWrite) : List Nat :=
  vs.set w.pos ((vs.getD w.pos 0 &&& w.mask ||| w.orBits) % 256)

/-- Apply a sequence of positional channel overwrites left to right. -/
def applyWrites (vs : List Nat) (ws : List BitWrite) : List Nat :=
  ws.foldl applyWrite vs

/-- Bit k of the frame (16-bit length field, then the message chars
MSB-first), as a Bool. -/
def frameBitB (len : Nat) (msg : List Nat) (k : Nat) : Bool :=
  if k < 16 then Nat.testBit len (15 - k)
  else Nat.testBit (msg.getD ((k - 16) / 8) 0) (7 - (k - 16) % 8)

/-- Bit k of the frame as a Nat in {0, 1}. -/
def frameBit (len : Nat) (msg : List Nat) (k : Nat) : Nat :=
  (frameBitB len msg k).toNat

/-- The positional overwrite the length loop performs at global step k. -/
def lenWrite (Nn len : Nat) (k : Nat) : BitWrite :=
  ⟨k % Nn, wrap_mask (k / Nn), len >>> (15 - k) &&& 1⟩

/-- The positional overwrites the inner message loop performs for one char
starting at global step base. -/
def letterWrites (Nn base letter : Nat) : List BitWrite :=
  (List.range' base 8).map fun k =>
    ⟨k % Nn, wrap_mask (k / Nn), (letter >>> (7 - (k - base)) &&& 1) <<< (k / Nn)⟩

/-- The positional overwrites of the whole message loop from global step
base on. -/
def msgWrites (Nn : Nat) : Nat → List Nat → List BitWrite
  | _, [] => []
  | base, letter :: rest => letterWrites Nn base letter ++ msgWrites Nn (base + 8) rest

/-- The positional overwrite encode performs at global step k: the length
loop's bit for k < 16, the message loop's plane-shifted bit after. -/
def encWrite (Nn len : Nat) (msg : List Nat) (k : Nat) : BitWrite :=
  ⟨k % Nn, wrap_mask (k / Nn),
    if k < 16 then frameBit len msg k else frameBit len msg k <<< (k / Nn)⟩

/-- All positional overwrites of an encode run of T steps. -/
def encWrites (Nn len : Nat) (msg : List Nat) (T : Nat) : List BitWrite :=
  (List.range T).map (encWrite Nn len msg)

/-- The raw value decode's length loop reads at global step k. -/
def readLenBit (vs : List Nat) (Nn k : Nat) : Nat :=
  vs.getD (k % Nn) 0 &&& bitmask (k / Nn)

/-- The normalized bit decode's char loop reads at global step k. -/
def readMsgBit (vs : List Nat) (Nn k : Nat) : Nat :=
  (vs.getD (k % Nn) 0 &&& bitmask (k / Nn)) >>> (k / Nn)

/-- The length accumulator decode's first loop builds over the given step
indices. -/
def lenFold (vs : List Nat) (Nn : Nat) (acc : Nat) (ks : List Nat) : Nat :=
  ks.foldl (fun a k => a ||| readLenBit vs Nn k <<< (15 - k) % 65536) acc

/-- The char accumulator decode's inner loop builds over bit ranks js,
reading global steps base + j. -/
def byteFold (vs : List Nat) (Nn base : Nat) (acc : Nat) (js : List Nat) : Nat :=
  js.foldl (fun a j => a ||| readMsgBit vs Nn (base + j) <<< (7 - j) % 256) acc

/-- The char decode assembles from the 8 steps starting at base. -/
def byteValue (vs : List Nat) (Nn base : Nat) : Nat :=
  byteFold vs Nn base 0 (List.range 8)

/-! Helper lemmas. -/

theorem bitmask_eq (w : Nat) (h : w ≤ 7) : bitmask w = 2 ^ w := by
  interval_cases w <;> rfl

theorem wrap_mask_lt (w : Nat) : wrap_mask w < 256 := by
  unfold wrap_mask
  split <;> omega

theorem bitmask_lt (w : Nat) : bitmask w < 256 := by
  unfold bitmask
  split <;> omega

theorem testBit_wrap_mask (w b : Nat) (hw : w ≤ 7) :
    (wrap_mask w).testBit b = (decide (b < 8) && decide (b ≠ w)) := by
  by_cases hb : b < 8
  · interval_cases w <;> interval_cases b <;> decide
  · have h8 : (8 : Nat) ≤ b := Nat.le_of_not_lt hb
    have : wrap_mask w < 2 ^ b := by
      calc wrap_mask w < 256 := wrap_mask_lt w
      _ = 2 ^ 8 := rfl
      _ ≤ 2 ^ b := Nat.pow_le_pow_right (by norm_num) h8
    simp [Nat.testBit_lt_two_pow this, hb]

theorem check_size_none_iff (len W H : Nat) :
    check_size len W H = none ↔ 8 * len + 16 ≤ 8 * (W * H) ∧ len ≤ 65535 := by
  unfold check_size BITS_PER_BYTE NUM_LENGTH_BITS MAX_MSG_LENGTH
  split_ifs with h1 h2 <;> simp <;> omega

theorem getD_row_mem (g : Grid) (n : Nat) (h : n < g.length) : g.getD n [] ∈ g := by
  have he : g.getD n [] = g[n] := by simp [List.getD, List.getElem?_eq_getElem h]
  rw [he]
  exact List.getElem_mem h

theorem rowChannels_length (ps : List Pixel) : (rowChannels ps).length = 3 * ps.length := by
  induction ps with
  | nil => rfl
  | cons p rest ih =>
      show (rowChannels rest).length + 1 + 1 + 1 = 3 * (rest.length + 1)
      omega

theorem flatten_length (g : Grid) (W : Nat) (hw : ∀ row ∈ g, row.length = W) :
    (flatten g).length = 3 * (W * g.length) := by
  induction g with
  | nil => rfl
  | cons r rest ih =>
      show (rowChannels r ++ flatten rest).length = 3 * (W * (rest.length + 1))
      rw [List.length_append, rowChannels_length, ih (fun row h => hw row (by simp [h])),
        hw r (by simp)]
      ring

theorem rowChannels_getD (ps : List Pixel) (col : Nat) (ch : Color) (hcol : col < ps.length) :
    (rowChannels ps).getD (3 * col + colorIdx ch) 0 =
      (ps.getD col (Pixel.mk 0 0 0)).channel ch := by
  induction ps generalizing col with
  | nil => simp at hcol
  | cons p rest ih =>
      cases col with
      | zero => cases ch <;> rfl
      | succ c =>
          have h : 3 * (c + 1) + colorIdx ch = 3 * c + colorIdx ch + 1 + 1 + 1 := by omega
          rw [h]
          show (rowChannels rest).getD (3 * c + colorIdx ch) 0 = _
          exact ih c (by simpa using hcol)

theorem rowChannels_set (ps : List Pixel) (col : Nat) (ch : Color) (v : Nat)
    (hcol : col < ps.length) :
    rowChannels (ps.set col ((ps.getD col (Pixel.mk 0 0 0)).setChannel ch v)) =
      (rowChannels ps).set (3 * col + colorIdx ch) v := by
  induction ps generalizing col with
  | nil => simp at hcol
  | cons p rest ih =>
      cases col with
      | zero => cases ch <;> rfl
      | succ c =>
          have h : 3 * (c + 1) + colorIdx ch = 3 * c + colorIdx ch + 1 + 1 + 1 := by omega
          rw [h]
          show p.red :: p.green :: p.blue ::
              rowChannels (rest.set c ((rest.getD c (Pixel.mk 0 0 0)).setChannel ch v)) = _
          rw [ih c (by simpa using hcol)]
          rfl

theorem flatten_getD (g : Grid) (W : Nat) (hw : ∀ row ∈ g, row.length = W)
    (row col : Nat) (ch : Color) (hrow : row < g.length) (hcol : col < W) :
    (flatten g).getD (3 * (row * W + col) + colorIdx ch) 0 =
      ((g.getD row []).getD col (Pixel.mk 0 0 0)).channel ch := by
  induction g generalizing row with
  | nil => simp at hrow
  | cons r rest ih =>
      cases row with
      | zero =>
          have hrl : r.length = W := hw r (by simp)
          have hidx : 3 * (0 * W + col) + colorIdx ch < (rowChannels r).length := by
            rw [rowChannels_length, hrl]
            have : colorIdx ch < 3 := by cases ch <;> decide
            omega
          show (rowChannels r ++ flatten rest).getD (3 * (0 * W + col) + colorIdx ch) 0 = _
          rw [List.getD_append _ _ _ _ hidx]
          have h0 : (0 : Nat) * W + col = col := by omega
          rw [h0]
          exact rowChannels_getD r col ch (by omega)
      | succ rr =>
          have hrl : r.length = W := hw r (by simp)
          have hidx : 3 * ((rr + 1) * W + col) + colorIdx ch =
              (rowChannels r).length + (3 * (rr * W + col) + colorIdx ch) := by
            rw [rowChannels_length, hrl]
            have : (rr + 1) * W = rr * W + W := by ring
            omega
          show (rowChannels r ++ flatten rest).getD (3 * ((rr + 1) * W + col) + colorIdx ch) 0 = _
          rw [hidx, List.getD_append_right _ _ _ _ (Nat.le_add_right _ _), Nat.add_sub_cancel_left]
          exact ih (fun row h => hw row (by simp [h])) rr (by simpa using hrow)

theorem flatten_replace_channel (g : Grid) (W : Nat) (hw : ∀ row ∈ g, row.length = W)
    (c : ChannelAccessor) (hrow : c.row < g.length) (hcol : c.col < W) (v : Nat) :
    flatten (replace_channel g c v) =
      (flatten g).set (3 * (c.row * W + c.col) + colorIdx c.color) (v % 256) := by
  obtain ⟨row, col, wrap, ch⟩ := c
  simp only [replace_channel] at *
  induction g generalizing row with
  | nil => simp at hrow
  | cons r rest ih =>
      cases row with
      | zero =>
          have hrl : r.length = W := hw r (by simp)
          have hidx : 3 * (0 * W + col) + colorIdx ch < (rowChannels r).length := by
            rw [rowChannels_length, hrl]
            have : colorIdx ch < 3 := by cases ch <;> decide
            omega
          show rowChannels (r.set col ((r.getD col (Pixel.mk 0 0 0)).setChannel ch (v % 256)))
              ++ flatten rest =
            (rowChannels r ++ flatten rest).set (3 * (0 * W + col) + colorIdx ch) (v % 256)
          rw [List.set_append_left _ _ hidx]
          have h0 : (0 : Nat) * W + col = col := by omega
          rw [h0]
          rw [rowChannels_set r col ch (v % 256) (by omega)]
      | succ rr =>
          have hrl : r.length = W := hw r (by simp)
          have hidx : 3 * ((rr + 1) * W + col) + colorIdx ch =
              (rowChannels r).length + (3 * (rr * W + col) + colorIdx ch) := by
            rw [rowChannels_length, hrl]
            have : (rr + 1) * W = rr * W + W := by ring
            omega
          show rowChannels r ++ flatten (rest.set rr ((rest.getD rr []).set col
              (((rest.getD rr []).getD col (Pixel.mk 0 0 0)).setChannel ch (v % 256)))) =
            (rowChannels r ++ flatten rest).set
              (3 * ((rr + 1) * W + col) + colorIdx ch) (v % 256)
          rw [hidx, List.set_append_right _ _ (Nat.le_add_right _ _), Nat.add_sub_cancel_left,
            ih (fun row h => hw row (by simp [h])) rr (by simpa using hrow)]

theorem width_replace_channel (g : Grid) (c : ChannelAccessor) (v : Nat) :
    width (replace_channel g c v) = width g := by
  rcases g with _ | ⟨r, rest⟩
  · rfl
  · rcases hrow : c.row with _ | rr
    · simp [width, replace_channel, hrow, List.length_set]
    · simp [width, replace_channel, hrow]

theorem height_replace_channel (g : Grid) (c : ChannelAccessor) (v : Nat) :
    height (replace_channel g c v) = height g := by
  simp [height, replace_channel]

theorem wfGrid_replace_channel (g : Grid) (W H : Nat) (hwf : wfGrid g W H)
    (c : ChannelAccessor) (hrow : c.row < g.length) (v : Nat) :
    wfGrid (replace_channel g c v) W H := by
  obtain ⟨hlen, hw⟩ := hwf
  refine ⟨by simpa [replace_channel] using hlen, fun row hmem => ?_⟩
  rcases List.mem_or_eq_of_mem_set hmem with h | h
  · exact hw row h
  · subst h
    rw [List.length_set]
    exact hw _ (getD_row_mem g c.row hrow)

theorem cursorAt_zero (W H : Nat) : cursorAt W H 0 = ChannelAccessor.init := by
  simp [cursorAt, ChannelAccessor.init, colorOf]

theorem colorIdx_colorOf (r : Nat) (h : r < 3) : colorIdx (colorOf r) = r := by
  interval_cases r <;> rfl

theorem cursorAt_row_lt (W H k : Nat) (hW : 1 ≤ W) (hH : 1 ≤ H) : (cursorAt W H k).row < H := by
  show k % (3 * (W * H)) / 3 / W < H
  have hWH : 1 ≤ W * H := Nat.mul_le_mul hW hH
  have hp : k % (3 * (W * H)) < 3 * (W * H) := Nat.mod_lt _ (by omega)
  have h1 : k % (3 * (W * H)) / 3 < W * H := by omega
  rw [Nat.div_lt_iff_lt_mul (by omega : 0 < W)]
  have h2 : W * H = H * W := Nat.mul_comm W H
  omega

theorem cursorAt_col_lt (W H k : Nat) (hW : 1 ≤ W) : (cursorAt W H k).col < W := by
  show k % (3 * (W * H)) / 3 % W < W
  exact Nat.mod_lt _ (by omega)

theorem idx_cursorAt (W H k : Nat) :
    3 * ((cursorAt W H k).row * W + (cursorAt W H k).col) +
        colorIdx (cursorAt W H k).color = k % (3 * (W * H)) := by
  show 3 * (k % (3 * (W * H)) / 3 / W * W + k % (3 * (W * H)) / 3 % W) +
      colorIdx (colorOf (k % (3 * (W * H)) % 3)) = k % (3 * (W * H))
  rw [colorIdx_colorOf _ (by omega)]
  have h1 : k % (3 * (W * H)) / 3 / W * W + k % (3 * (W * H)) / 3 % W =
      k % (3 * (W * H)) / 3 := by
    have h2 := Nat.div_add_mod (k % (3 * (W * H)) / 3) W
    have h3 : k % (3 * (W * H)) / 3 / W * W = W * (k % (3 * (W * H)) / 3 / W) :=
      Nat.mul_comm _ _
    omega
  rw [h1]
  exact Nat.div_add_mod _ 3

theorem get_channel_cursorAt (g : Grid) (W H : Nat) (hwf : wfGrid g W H)
    (hW : 1 ≤ W) (hH : 1 ≤ H) (k : Nat) :
    get_channel g (cursorAt W H k) = (flatten g).getD (k % (3 * (W * H))) 0 := by
  obtain ⟨hlen, hw⟩ := hwf
  rw [← idx_cursorAt W H k]
  exact (flatten_getD g W hw _ _ _ (by rw [hlen]; exact cursorAt_row_lt W H k hW hH)
    (cursorAt_col_lt W H k hW)).symm

theorem replace_channel_cursorAt (g : Grid) (W H : Nat) (hwf : wfGrid g W H)
    (hW : 1 ≤ W) (hH : 1 ≤ H) (k v : Nat) :
    flatten (replace_channel g (cursorAt W H k) v) =
      (flatten g).set (k % (3 * (W * H))) (v % 256) := by
  obtain ⟨hlen, hw⟩ := hwf
  rw [← idx_cursorAt W H k]
  exact flatten_replace_channel g W hw _ (by rw [hlen]; exact cursorAt_row_lt W H k hW hH)
    (cursorAt_col_lt W H k hW) v

theorem next_channel_dims (g g' : Grid) (c : ChannelAccessor)
    (hw : width g' = width g) (hh : height g' = height g) :
    next_channel g' c = next_channel g c := by
  cases hc : c.color <;> simp [next_channel, hc, hw, hh]

/-- One advance from the state reached after k advances reaches the state
after k + 1 advances: the closed form of next_channel. -/
theorem next_channel_cursorAt (g : Grid) (W H k : Nat) (hW : 1 ≤ W) (hH : 1 ≤ H)
    (hgw : width g = W) (hgh : height g = H) :
    next_channel g (cursorAt W H k) = cursorAt W H (k + 1) := by
  have hWH : 1 ≤ W * H := Nat.mul_le_mul hW hH
  have hN : 0 < 3 * (W * H) := by omega
  obtain ⟨d, p, hk, hp⟩ : ∃ d p, k = 3 * (W * H) * d + p ∧ p < 3 * (W * H) :=
    ⟨k / (3 * (W * H)), k % (3 * (W * H)), (Nat.div_add_mod k (3 * (W * H))).symm,
      Nat.mod_lt _ hN⟩
  have hkm : k % (3 * (W * H)) = p := by
    rw [hk, Nat.mul_add_mod, Nat.mod_eq_of_lt hp]
  have hkd : k / (3 * (W * H)) = d := by
    rw [hk, Nat.mul_add_div hN, Nat.div_eq_of_lt hp, Nat.add_zero]
  have hsm : p + 1 < 3 * (W * H) → (k + 1) % (3 * (W * H)) = p + 1 := by
    intro hlt
    have : k + 1 = 3 * (W * H) * d + (p + 1) := by omega
    rw [this, Nat.mul_add_mod, Nat.mod_eq_of_lt hlt]
  have hsd : p + 1 < 3 * (W * H) → (k + 1) / (3 * (W * H)) = d := by
    intro hlt
    have : k + 1 = 3 * (W * H) * d + (p + 1) := by omega
    rw [this, Nat.mul_add_div hN, Nat.div_eq_of_lt hlt, Nat.add_zero]
  have hr3 : p % 3 = 0 ∨ p % 3 = 1 ∨ p % 3 = 2 := by omega
  rcases hr3 with hr | hr | hr
  · -- red channel: advance to green in the same pixel
    have hlt : p + 1 < 3 * (W * H) := by omega
    have h3 : (p + 1) / 3 = p / 3 := by omega
    have h4 : (p + 1) % 3 = 1 := by omega
    simp only [cursorAt, next_channel, hkm, hkd, hr, hsm hlt, hsd hlt, h3, h4, colorOf]
  · -- green channel: advance to blue in the same pixel
    have hlt : p + 1 < 3 * (W * H) := by omega
    have h3 : (p + 1) / 3 = p / 3 := by omega
    have h4 : (p + 1) % 3 = 2 := by omega
    simp only [cursorAt, next_channel, hkm, hkd, hr, hsm hlt, hsd hlt, h3, h4, colorOf]
  · -- blue channel: advance to the next pixel
    obtain ⟨q, hq⟩ : ∃ q, p = 3 * q + 2 := ⟨p / 3, by omega⟩
    obtain ⟨row, col, hqrc, hcolW⟩ : ∃ row col, q = W * row + col ∧ col < W :=
      ⟨q / W, q % W, (Nat.div_add_mod q W).symm, Nat.mod_lt _ (by omega)⟩
    have hqd : q / W = row := by
      rw [hqrc, Nat.mul_add_div (by omega), Nat.div_eq_of_lt hcolW, Nat.add_zero]
    have hqm : q % W = col := by
      rw [hqrc, Nat.mul_add_mod, Nat.mod_eq_of_lt hcolW]
    have hq3 : p / 3 = q := by omega
    have hrowH : row < H := by
      have : q < W * H := by omega
      by_contra hcon
      have : W * H ≤ W * row := Nat.mul_le_mul_left W (Nat.le_of_not_lt hcon)
      omega
    have hs3 : (p + 1) / 3 = q + 1 := by omega
    have hs4 : (p + 1) % 3 = 0 := by omega
    simp only [cursorAt, next_channel, hkm, hkd, hq3, hqd, hqm, hr, colorOf, hgw, hgh]
    by_cases hc : col < W - 1
    · -- a pixel to the right
      have hq1 : q + 1 = W * row + (col + 1) := by omega
      have hlt : p + 1 < 3 * (W * H) := by
        have h5 : W * (row + 1) ≤ W * H := Nat.mul_le_mul_left W hrowH
        have h6 : W * (row + 1) = W * row + W := Nat.mul_succ W row
        omega
      have hd1 : (q + 1) / W = row := by
        rw [hq1, Nat.mul_add_div (by omega), Nat.div_eq_of_lt (by omega), Nat.add_zero]
      have hm1 : (q + 1) % W = col + 1 := by
        rw [hq1, Nat.mul_add_mod, Nat.mod_eq_of_lt (by omega)]
      simp only [hsm hlt, hsd hlt, hs3, hs4, hd1, hm1, if_pos hc, colorOf]
    · by_cases hrb : row < H - 1
      · -- no pixel to the right, but a row below
        have hcol : col = W - 1 := by omega
        have hq1 : q + 1 = W * (row + 1) := by
          rw [Nat.mul_succ]
          omega
        have hlt : p + 1 < 3 * (W * H) := by
          have h5 : W * (row + 1) ≤ W * (H - 1) := Nat.mul_le_mul_left W (by omega)
          have h6 : W * (H - 1) + W = W * H := by
            rw [← Nat.mul_succ]
            congr 1
            omega
          omega
        have hd1 : (q + 1) / W = row + 1 := by
          rw [hq1, Nat.mul_div_cancel_left _ (by omega : 0 < W)]
        have hm1 : (q + 1) % W = 0 := by
          rw [hq1, Nat.mul_mod_right]
        simp only [hsm hlt, hsd hlt, hs3, hs4, hd1, hm1, if_neg hc, if_pos hrb, colorOf]
      · -- bottom-right pixel: wrap to (0,0) and count one more wraparound
        have hcol : col = W - 1 := by omega
        have hrow : row = H - 1 := by omega
        have hq1 : q + 1 = W * H := by
          have h6 : W * (H - 1) + W = W * H := by
            rw [← Nat.mul_succ]
            congr 1
            omega
          have h7 : W * row = W * (H - 1) := by rw [hrow]
          omega
        have hk1 : k + 1 = 3 * (W * H) * (d + 1) := by
          rw [Nat.mul_succ]
          omega
        have hm0 : (k + 1) % (3 * (W * H)) = 0 := by
          rw [hk1, Nat.mul_mod_right]
        have hd0 : (k + 1) / (3 * (W * H)) = d + 1 := by
          rw [hk1, Nat.mul_div_cancel_left _ hN]
        simp only [hm0, hd0, if_neg hc, if_neg hrb, colorOf, Nat.zero_div,
          Nat.zero_mod]

/-- The accessor state after k advances from the fresh accessor is the
closed form cursorAt: channel k mod 3WH of wraparound k div 3WH. -/
theorem cursorAfter_eq (g : Grid) (W H : Nat) (hW : 1 ≤ W) (hH : 1 ≤ H)
    (hgw : width g = W) (hgh : height g = H) (k : Nat) :
    (next_channel g)^[k] ChannelAccessor.init = cursorAt W H k := by
  induction k with
  | zero => rw [Function.iterate_zero_apply, cursorAt_zero]
  | succ n ih =>
      rw [Function.iterate_succ_apply', ih, next_channel_cursorAt g W H n hW hH hgw hgh]

theorem range'_split (s m n : Nat) :
    List.range' s (m + n) = List.range' s m ++ List.range' (s + m) n := by
  have h := List.range'_append s m n 1
  simp only [Nat.one_mul] at h
  rw [Nat.add_comm m n, ← h]

theorem range_reverse_succ (n : Nat) :
    (List.range (n + 1)).reverse = n :: (List.range n).reverse := by
  rw [List.range_succ]
  simp

theorem toNat_testBit (y s : Nat) : (y.testBit s).toNat = y >>> s &&& 1 := by
  rw [Nat.and_one_is_mod, Nat.shiftRight_eq_div_pow]
  rcases Nat.mod_two_eq_zero_or_one (y / 2 ^ s) with h | h <;>
    simp [Nat.testBit_to_div_mod, h]

/-- One overwrite of the encode loops, seen on the flat channel list. -/
theorem encode_write_step (g : Grid) (W H : Nat) (hwf : wfGrid g W H)
    (hW : 1 ≤ W) (hH : 1 ≤ H) (k orBit : Nat) :
    flatten (replace_channel g (cursorAt W H k)
        (get_channel g (cursorAt W H k) &&&
          wrap_mask (cursorAt W H k).wraparounds ||| orBit)) =
      applyWrite (flatten g)
        ⟨k % (3 * (W * H)), wrap_mask (k / (3 * (W * H))), orBit⟩ := by
  rw [replace_channel_cursorAt g W H hwf hW hH, get_channel_cursorAt g W H hwf hW hH]
  rfl

theorem width_of_wf (g : Grid) (W H : Nat) (hwf : wfGrid g W H) (hH : 1 ≤ H) :
    width g = W := by
  obtain ⟨hlen, hw⟩ := hwf
  rcases g with _ | ⟨r, rest⟩
  · simp at hlen
    omega
  · exact hw r (by simp)

theorem encodeLenBits_cons (len : Nat) (g : Grid) (c : ChannelAccessor)
    (shift : Nat) (rest : List Nat) :
    encodeLenBits len g c (shift :: rest) =
      encodeLenBits len
        (replace_channel g c
          (get_channel g c &&& wrap_mask c.wraparounds ||| (len >>> shift &&& 1)))
        (next_channel
          (replace_channel g c
            (get_channel g c &&& wrap_mask c.wraparounds ||| (len >>> shift &&& 1))) c)
        rest := rfl

theorem encodeMsgBits_cons (letter : Nat) (g : Grid) (c : ChannelAccessor)
    (shift : Nat) (rest : List Nat) :
    encodeMsgBits letter g c (shift :: rest) =
      encodeMsgBits letter
        (replace_channel g c
          (get_channel g c &&& wrap_mask c.wraparounds |||
            (letter >>> shift &&& 1) <<< c.wraparounds))
        (next_channel
          (replace_channel g c
            (get_channel g c &&& wrap_mask c.wraparounds |||
              (letter >>> shift &&& 1) <<< c.wraparounds)) c)
        rest := rfl

/-- The length loop of encode, positionally: starting n steps before step
16, it applies the lenWrite overwrites of steps 16 - n .. 15 and leaves the
accessor at step 16. -/
theorem encodeLenBits_sim (W H len : Nat) (hW : 1 ≤ W) (hH : 1 ≤ H) :
    ∀ n g, n ≤ 16 → wfGrid g W H →
      flatten (encodeLenBits len g (cursorAt W H (16 - n)) (List.range n).reverse).1 =
          applyWrites (flatten g)
            ((List.range' (16 - n) n).map (lenWrite (3 * (W * H)) len)) ∧
        wfGrid (encodeLenBits len g (cursorAt W H (16 - n)) (List.range n).reverse).1 W H ∧
        (encodeLenBits len g (cursorAt W H (16 - n)) (List.range n).reverse).2 =
          cursorAt W H 16 := by
  intro n
  induction n with
  | zero => exact fun g _ hwf => ⟨rfl, hwf, rfl⟩
  | succ n ih =>
      intro g hn hwf
      have hgw : width g = W := width_of_wf g W H hwf hH
      have hgh : height g = H := hwf.1
      rw [range_reverse_succ, encodeLenBits_cons]
      set c0 := cursorAt W H (16 - (n + 1)) with hc0
      set g' := replace_channel g c0
        (get_channel g c0 &&& wrap_mask c0.wraparounds ||| (len >>> n &&& 1)) with hg'
      have hrow0 : c0.row < g.length := by
        rw [hwf.1]
        exact cursorAt_row_lt W H _ hW hH
      have hwf' : wfGrid g' W H := wfGrid_replace_channel g W H hwf c0 hrow0 _
      have hwid : width g' = width g := width_replace_channel g c0 _
      have hhei : height g' = height g := height_replace_channel g c0 _
      have hnext : next_channel g' c0 = cursorAt W H (16 - n) := by
        have harg : 16 - (n + 1) + 1 = 16 - n := by omega
        rw [next_channel_dims g g' c0 hwid hhei, hc0,
          next_channel_cursorAt g W H _ hW hH hgw hgh, harg]
      have hflat' : flatten g' =
          applyWrite (flatten g) (lenWrite (3 * (W * H)) len (16 - (n + 1))) := by
        rw [hg', hc0, encode_write_step g W H hwf hW hH]
        have h15 : 15 - (16 - (n + 1)) = n := by omega
        rw [lenWrite, h15]
      rw [hnext]
      obtain ⟨ih1, ih2, ih3⟩ := ih g' (by omega) hwf'
      have hsplit : List.range' (16 - (n + 1)) (n + 1) =
          (16 - (n + 1)) :: List.range' (16 - n) n := by
        have harg2 : 16 - (n + 1) + 1 = 16 - n := by omega
        rw [List.range'_succ, harg2]
      refine ⟨?_, ih2, ih3⟩
      rw [ih1, hsplit, List.map_cons]
      show applyWrites (flatten g') _ =
        applyWrites (applyWrite (flatten g) (lenWrite (3 * (W * H)) len (16 - (n + 1)))) _
      rw [hflat']

theorem encodeMsg_cons (g : Grid) (c : ChannelAccessor) (letter : Nat) (rest : List Nat) :
    encodeMsg g c (letter :: rest) =
      encodeMsg (encodeMsgBits letter g c (List.range 8).reverse).1
        (encodeMsgBits letter g c (List.range 8).reverse).2 rest := rfl

theorem msgWrites_cons (Nn base letter : Nat) (rest : List Nat) :
    msgWrites Nn base (letter :: rest) =
      letterWrites Nn base letter ++ msgWrites Nn (base + 8) rest := rfl

theorem encode_unfold (msg : List Nat) (g : Grid) :
    encode msg g =
      encodeMsg
        (encodeLenBits (msg.length % 65536) g ChannelAccessor.init
          (List.range 16).reverse).1
        (encodeLenBits (msg.length % 65536) g ChannelAccessor.init
          (List.range 16).reverse).2 msg := rfl

/-- The inner message loop of encode for one char, positionally: starting n
steps before step base + 8, it applies the plane-shifted bit overwrites of
the char's remaining bits and leaves the accessor at step base + 8. -/
theorem encodeMsgBits_sim (W H letter base : Nat) (hW : 1 ≤ W) (hH : 1 ≤ H) :
    ∀ n g, n ≤ 8 → wfGrid g W H →
      flatten (encodeMsgBits letter g (cursorAt W H (base + (8 - n)))
            (List.range n).reverse).1 =
          applyWrites (flatten g)
            ((List.range' (base + (8 - n)) n).map fun k =>
              BitWrite.mk (k % (3 * (W * H))) (wrap_mask (k / (3 * (W * H))))
                ((letter >>> (7 - (k - base)) &&& 1) <<< (k / (3 * (W * H))))) ∧
        wfGrid (encodeMsgBits letter g (cursorAt W H (base + (8 - n)))
            (List.range n).reverse).1 W H ∧
        (encodeMsgBits letter g (cursorAt W H (base + (8 - n)))
            (List.range n).reverse).2 = cursorAt W H (base + 8) := by
  intro n
  induction n with
  | zero => exact fun g _ hwf => ⟨rfl, hwf, rfl⟩
  | succ n ih =>
      intro g hn hwf
      have hgw : width g = W := width_of_wf g W H hwf hH
      have hgh : height g = H := hwf.1
      rw [range_reverse_succ, encodeMsgBits_cons]
      set c0 := cursorAt W H (base + (8 - (n + 1))) with hc0
      set g' := replace_channel g c0
        (get_channel g c0 &&& wrap_mask c0.wraparounds |||
          (letter >>> n &&& 1) <<< c0.wraparounds) with hg'
      have hrow0 : c0.row < g.length := by
        rw [hwf.1]
        exact cursorAt_row_lt W H _ hW hH
      have hwf' : wfGrid g' W H := wfGrid_replace_channel g W H hwf c0 hrow0 _
      have hwid : width g' = width g := width_replace_channel g c0 _
      have hhei : height g' = height g := height_replace_channel g c0 _
      have hnext : next_channel g' c0 = cursorAt W H (base + (8 - n)) := by
        have harg : base + (8 - (n + 1)) + 1 = base + (8 - n) := by omega
        rw [next_channel_dims g g' c0 hwid hhei, hc0,
          next_channel_cursorAt g W H _ hW hH hgw hgh, harg]
      have hflat' : flatten g' =
          applyWrite (flatten g)
            (BitWrite.mk ((base + (8 - (n + 1))) % (3 * (W * H)))
              (wrap_mask ((base + (8 - (n + 1))) / (3 * (W * H))))
              ((letter >>> (7 - (base + (8 - (n + 1)) - base)) &&& 1)
                <<< ((base + (8 - (n + 1))) / (3 * (W * H))))) := by
        have h7 : 7 - (base + (8 - (n + 1)) - base) = n := by omega
        rw [h7, hg', hc0]
        exact encode_write_step g W H hwf hW hH _ _
      rw [hnext]
      obtain ⟨ih1, ih2, ih3⟩ := ih g' (by omega) hwf'
      have hsplit : List.range' (base + (8 - (n + 1))) (n + 1) =
          (base + (8 - (n + 1))) :: List.range' (base + (8 - n)) n := by
        have harg2 : base + (8 - (n + 1)) + 1 = base + (8 - n) := by omega
        rw [List.range'_succ, harg2]
      refine ⟨?_, ih2, ih3⟩
      rw [ih1, hsplit, List.map_cons]
      show applyWrites (flatten g') _ =
        applyWrites (applyWrite (flatten g) _) _
      rw [hflat']

/-- The outer message loop of encode, positionally: from step base it
applies msgWrites for the remaining chars and leaves the accessor at step
base + 8·(number of chars). -/
theorem encodeMsg_sim (W H : Nat) (hW : 1 ≤ W) (hH : 1 ≤ H) :
    ∀ (rest : List Nat) (base : Nat) (g : Grid), wfGrid g W H →
      flatten (encodeMsg g (cursorAt W H base) rest).1 =
          applyWrites (flatten g) (msgWrites (3 * (W * H)) base rest) ∧
        wfGrid (encodeMsg g (cursorAt W H base) rest).1 W H ∧
        (encodeMsg g (cursorAt W H base) rest).2 =
          cursorAt W H (base + 8 * rest.length) := by
  intro rest
  induction rest with
  | nil =>
      intro base g hwf
      exact ⟨rfl, hwf, rfl⟩
  | cons letter tail ih =>
      intro base g hwf
      obtain ⟨h1, h2, h3⟩ := encodeMsgBits_sim W H letter base hW hH 8 g (le_refl 8) hwf
      simp only [show (8 : Nat) - 8 = 0 from rfl, Nat.add_zero] at h1 h2 h3
      rw [encodeMsg_cons, h3]
      obtain ⟨t1, t2, t3⟩ := ih (base + 8)
        (encodeMsgBits letter g (cursorAt W H base) (List.range 8).reverse).1 h2
      refine ⟨?_, t2, ?_⟩
      · rw [t1, h1]
        have happ : applyWrites (flatten g)
            (letterWrites (3 * (W * H)) base letter ++
              msgWrites (3 * (W * H)) (base + 8) tail) =
            applyWrites (applyWrites (flatten g) (letterWrites (3 * (W * H)) base letter))
              (msgWrites (3 * (W * H)) (base + 8) tail) := List.foldl_append ..
        rw [msgWrites_cons, happ]
        rfl
      · rw [t3]
        have : base + 8 + 8 * tail.length = base + 8 * (tail.length + 1) := by omega
        rw [this]
        rfl

/-- The whole encode run, positionally: the 16 length overwrites followed
by the message overwrites, with the accessor left just past the last bit
written. -/
theorem encode_sim (msg : List Nat) (g : Grid) (W H : Nat) (hW : 1 ≤ W) (hH : 1 ≤ H)
    (hwf : wfGrid g W H) :
    flatten (encode msg g).1 =
        applyWrites (flatten g)
          ((List.range' 0 16).map (lenWrite (3 * (W * H)) (msg.length % 65536)) ++
            msgWrites (3 * (W * H)) 16 msg) ∧
      wfGrid (encode msg g).1 W H ∧
      (encode msg g).2 = cursorAt W H (16 + 8 * msg.length) := by
  obtain ⟨h1, h2, h3⟩ :=
    encodeLenBits_sim W H (msg.length % 65536) hW hH 16 g (le_refl 16) hwf
  simp only [show (16 : Nat) - 16 = 0 from rfl, cursorAt_zero] at h1 h2 h3
  rw [encode_unfold, h3]
  obtain ⟨m1, m2, m3⟩ := encodeMsg_sim W H hW hH msg 16
    (encodeLenBits (msg.length % 65536) g ChannelAccessor.init (List.range 16).reverse).1 h2
  refine ⟨?_, m2, ?_⟩
  · rw [m1, h1]
    have happ : applyWrites (flatten g)
        ((List.range' 0 16).map (lenWrite (3 * (W * H)) (msg.length % 65536)) ++
          msgWrites (3 * (W * H)) 16 msg) =
        applyWrites (applyWrites (flatten g)
            ((List.range' 0 16).map (lenWrite (3 * (W * H)) (msg.length % 65536))))
          (msgWrites (3 * (W * H)) 16 msg) := List.foldl_append ..
    rw [happ]
  · exact m3

theorem getD_set_self (l : List Nat) (i v : Nat) (h : i < l.length) :
    (l.set i v).getD i 0 = v := by
  simp [List.getD, List.getElem?_set_self, h]

theorem getD_set_ne (l : List Nat) (i j v : Nat) (h : i ≠ j) :
    (l.set i v).getD j 0 = l.getD j 0 := by
  simp [List.getD, List.getElem?_set_ne h]

theorem applyWrites_nil (vs : List Nat) : applyWrites vs [] = vs := rfl

theorem applyWrites_snoc (vs : List Nat) (ws : List BitWrite) (w : BitWrite) :
    applyWrites vs (ws ++ [w]) = applyWrite (applyWrites vs ws) w := by
  unfold applyWrites
  rw [List.foldl_append]
  rfl

theorem applyWrites_length (vs : List Nat) (ws : List BitWrite) :
    (applyWrites vs ws).length = vs.length := by
  induction ws generalizing vs with
  | nil => rfl
  | cons w ws ih =>
      show (applyWrites (applyWrite vs w) ws).length = _
      rw [ih]
      exact List.length_set ..

theorem encWrites_zero (Nn len : Nat) (msg : List Nat) : encWrites Nn len msg 0 = [] := rfl

theorem encWrites_succ (Nn len : Nat) (msg : List Nat) (T : Nat) :
    encWrites Nn len msg (T + 1) =
      encWrites Nn len msg T ++ [encWrite Nn len msg T] := by
  unfold encWrites
  rw [List.range_succ, List.map_append]
  rfl

theorem lenWrite_eq_encWrite (Nn len : Nat) (msg : List Nat) (k : Nat) (hk : k < 16) :
    lenWrite Nn len k = encWrite Nn len msg k := by
  simp only [lenWrite, encWrite, frameBit, frameBitB, if_pos hk, toNat_testBit]

theorem letterWrites_eq_encWrite (Nn len : Nat) (msg : List Nat) (i letter : Nat)
    (hlet : msg.getD i 0 = letter) :
    letterWrites Nn (16 + 8 * i) letter =
      (List.range' (16 + 8 * i) 8).map (encWrite Nn len msg) := by
  unfold letterWrites
  apply List.map_congr_left
  intro k hk
  rw [List.mem_range'_1] at hk
  have hk16 : ¬ k < 16 := by omega
  have h1 : (k - 16) / 8 = i := by omega
  have h2 : (k - 16) % 8 = k - (16 + 8 * i) := by omega
  simp only [encWrite, if_neg hk16, frameBit, frameBitB, h1, h2, hlet, toNat_testBit]

theorem msgWrites_eq (Nn len : Nat) (msg : List Nat) :
    ∀ (rest : List Nat) (i : Nat), msg.drop i = rest →
      msgWrites Nn (16 + 8 * i) rest =
        (List.range' (16 + 8 * i) (8 * rest.length)).map (encWrite Nn len msg) := by
  intro rest
  induction rest with
  | nil => intro i _; rfl
  | cons letter tail ih =>
      intro i h
      have hlet : msg.getD i 0 = letter := by
        have h0 : msg[i]? = some letter := by
          have := List.getElem?_drop msg i 0
          rw [h] at this
          simpa using this.symm
        simp [List.getD, h0]
      have htail : msg.drop (i + 1) = tail := by
        have := List.drop_drop 1 i msg
        rw [h] at this
        simpa [Nat.add_comm] using this.symm
      have harg : 16 + 8 * i + 8 = 16 + 8 * (i + 1) := by omega
      have hlen8 : 8 * (letter :: tail).length = 8 + 8 * tail.length := by
        rw [List.length_cons]
        omega
      rw [msgWrites_cons, hlen8, range'_split, List.map_append, harg,
        ih (i + 1) htail, letterWrites_eq_encWrite Nn len msg i letter hlet]

/-- The write sequence of a whole encode run is the length-field writes
followed by the message writes. -/
theorem encWrites_eq (Nn len : Nat) (msg : List Nat) :
    encWrites Nn len msg (16 + 8 * msg.length) =
      (List.range' 0 16).map (lenWrite Nn len) ++ msgWrites Nn 16 msg := by
  unfold encWrites
  rw [List.range_eq_range' _, range'_split 0 16 (8 * msg.length), List.map_append]
  congr 1
  · apply List.map_congr_left
    intro k hk
    rw [List.mem_range'_1] at hk
    exact (lenWrite_eq_encWrite Nn len msg k (by omega)).symm
  · have h := msgWrites_eq Nn len msg msg 0 (by simp)
    simp only [Nat.mul_zero, Nat.add_zero] at h
    rw [Nat.zero_add, h]

theorem frameBit_le_one (len : Nat) (msg : List Nat) (k : Nat) : frameBit len msg k ≤ 1 := by
  unfold frameBit
  cases frameBitB len msg k <;> simp

theorem testBit_le_one (x i : Nat) (hx : x ≤ 1) (hi : i ≠ 0) : x.testBit i = false := by
  apply Nat.testBit_lt_two_pow
  have h2 : 2 ≤ 2 ^ i := by
    calc (2 : Nat) = 2 ^ 1 := rfl
    _ ≤ 2 ^ i := Nat.pow_le_pow_right (by norm_num) (by omega)
  omega

theorem testBit_of_lt_256 (x b : Nat) (hx : x < 256) (hb : 8 ≤ b) : x.testBit b = false := by
  apply Nat.testBit_lt_two_pow
  calc x < 256 := hx
  _ = 2 ^ 8 := rfl
  _ ≤ 2 ^ b := Nat.pow_le_pow_right (by norm_num) hb

theorem testBit_toNat_zero (b : Bool) : b.toNat.testBit 0 = b := by
  cases b <;> decide

theorem applyWrite_getD_self (u : List Nat) (w : BitWrite) (h : w.pos < u.length) :
    (applyWrite u w).getD w.pos 0 = (u.getD w.pos 0 &&& w.mask ||| w.orBits) % 256 :=
  getD_set_self u w.pos _ h

theorem applyWrite_getD_ne (u : List Nat) (w : BitWrite) (p : Nat) (h : w.pos ≠ p) :
    (applyWrite u w).getD p 0 = u.getD p 0 :=
  getD_set_ne u w.pos p _ h

theorem applyWrite_encWrite_getD_self (u : List Nat) (Nn len : Nat) (msg : List Nat)
    (k : Nat) (h : k % Nn < u.length) :
    (applyWrite u (encWrite Nn len msg k)).getD (k % Nn) 0 =
      (u.getD (k % Nn) 0 &&& wrap_mask (k / Nn) |||
        (encWrite Nn len msg k).orBits) % 256 :=
  applyWrite_getD_self u (encWrite Nn len msg k) h

/-- Any bit other than the targeted plane bit and bit 0 of the or-operand
is absent from an encode write's or-operand. -/
theorem encWrite_orBits_testBit_ne (Nn len : Nat) (msg : List Nat) (k i : Nat)
    (hne : i ≠ k / Nn) (hk16 : k < 16 → i ≠ 0) :
    ((encWrite Nn len msg k).orBits).testBit i = false := by
  show (if k < 16 then frameBit len msg k else frameBit len msg k <<< (k / Nn)).testBit i =
    false
  by_cases hk : k < 16
  · rw [if_pos hk]
    exact testBit_le_one _ i (frameBit_le_one len msg k) (hk16 hk)
  · rw [if_neg hk, Nat.testBit_shiftLeft]
    by_cases hle : k / Nn ≤ i
    · have h0 : i - k / Nn ≠ 0 := by omega
      rw [testBit_le_one _ _ (frameBit_le_one len msg k) h0]
      simp
    · simp [hle]

/-- A masked-OR overwrite of plane wv leaves every other low bit of the
channel byte unchanged. -/
theorem testBit_write_other (u0 orB wv b : Nat) (hwv : wv ≤ 7) (hb8 : b < 8) (hbw : b ≠ wv)
    (horB : orB.testBit b = false) :
    ((u0 &&& wrap_mask wv ||| orB) % 256).testBit b = u0.testBit b := by
  rw [show (256 : Nat) = 2 ^ 8 from rfl, Nat.testBit_mod_two_pow, Nat.testBit_or,
    Nat.testBit_and, testBit_wrap_mask wv b hwv, horB]
  simp [hb8, hbw]

/-- Frame effect of the encode write sequence: every (channel, plane) pair
no step targets keeps its original bit, and all stored values stay bytes. -/
theorem applyWrites_frame (Nn len : Nat) (msg : List Nat) (vs : List Nat)
    (hNn : 0 < Nn) (hlen : Nn ≤ vs.length) (hbytes : ∀ p, vs.getD p 0 < 256) :
    ∀ T, (∀ k < T, k / Nn ≤ 7) →
      (∀ p, (applyWrites vs (encWrites Nn len msg T)).getD p 0 < 256) ∧
      (∀ p b, (∀ k < T, ¬(p = k % Nn ∧ b = k / Nn)) →
        ((applyWrites vs (encWrites Nn len msg T)).getD p 0).testBit b =
          (vs.getD p 0).testBit b) := by
  intro T
  induction T with
  | zero => exact fun _ => ⟨hbytes, fun p b _ => rfl⟩
  | succ T ih =>
      intro hw7
      obtain ⟨ihB, ihU⟩ := ih fun k hk => hw7 k (by omega)
      rw [encWrites_succ, applyWrites_snoc]
      set u := applyWrites vs (encWrites Nn len msg T) with hu
      have hposlt : T % Nn < u.length := by
        rw [hu, applyWrites_length]
        exact lt_of_lt_of_le (Nat.mod_lt _ hNn) hlen
      have hwvT : T / Nn ≤ 7 := hw7 T (by omega)
      constructor
      · intro p
        by_cases hp : T % Nn = p
        · subst hp
          rw [applyWrite_encWrite_getD_self u Nn len msg T hposlt]
          exact Nat.mod_lt _ (by norm_num)
        · rw [applyWrite_getD_ne u _ p hp]
          exact ihB p
      · intro p b huntouched
        have hub := ihU p b fun k hk => huntouched k (by omega)
        by_cases hp : T % Nn = p
        · subst hp
          have hbw : b ≠ T / Nn := fun hb =>
            huntouched T (by omega) ⟨rfl, hb⟩
          have hb0 : b ≠ 0 := fun hb =>
            huntouched (T % Nn) (by have := Nat.mod_le T Nn; omega)
              ⟨(Nat.mod_mod_of_dvd T dvd_rfl).symm,
                by rw [hb, Nat.div_eq_of_lt (Nat.mod_lt _ hNn)]⟩
          rw [applyWrite_encWrite_getD_self u Nn len msg T hposlt]
          by_cases hb8 : b < 8
          · rw [testBit_write_other _ _ _ b hwvT hb8 hbw
              (encWrite_orBits_testBit_ne Nn len msg T b hbw fun _ => hb0)]
            exact hub
          · rw [testBit_of_lt_256 _ b (Nat.mod_lt _ (by norm_num)) (by omega),
              testBit_of_lt_256 _ b (hbytes _) (by omega)]
        · rw [applyWrite_getD_ne u _ p hp]
          exact hub

/-- Written bits of the encode write sequence, in the clean regime where
the 16-bit length field fits inside one wraparound (16 ≤ Nn): the bit at
channel k mod Nn, plane k div Nn, of the written list is frame bit k. -/
theorem applyWrites_bits (Nn len : Nat) (msg : List Nat) (vs : List Nat)
    (hNn : 16 ≤ Nn) (hlen : Nn ≤ vs.length) :
    ∀ T, (∀ k < T, k / Nn ≤ 7) →
      ∀ k < T,
        ((applyWrites vs (encWrites Nn len msg T)).getD (k % Nn) 0).testBit (k / Nn) =
          frameBitB len msg k := by
  intro T
  induction T with
  | zero => intro _ k hk; omega
  | succ T ih =>
      intro hw7 k hk
      have hNn0 : 0 < Nn := by omega
      rw [encWrites_succ, applyWrites_snoc]
      set u := applyWrites vs (encWrites Nn len msg T) with hu
      have hposlt : T % Nn < u.length := by
        rw [hu, applyWrites_length]
        exact lt_of_lt_of_le (Nat.mod_lt _ hNn0) hlen
      have hwvT : T / Nn ≤ 7 := hw7 T (by omega)
      rcases Nat.lt_or_ge k T with hkT | hkT
      · have ihk := ih (fun j hj => hw7 j (by omega)) k hkT
        by_cases hp : T % Nn = k % Nn
        · have hdiv : k / Nn < T / Nn := by
            have h1 := Nat.div_add_mod k Nn
            have h2 := Nat.div_add_mod T Nn
            have h3 : Nn * (k / Nn) < Nn * (T / Nn) := by omega
            exact Nat.lt_of_mul_lt_mul_left h3
          have hkw7 : k / Nn ≤ 7 := hw7 k (by omega)
          have heq : (applyWrite u (encWrite Nn len msg T)).getD (k % Nn) 0 =
              (u.getD (T % Nn) 0 &&& wrap_mask (T / Nn) |||
                (encWrite Nn len msg T).orBits) % 256 := by
            rw [← hp]
            exact applyWrite_getD_self u _ hposlt
          rw [heq,
            testBit_write_other _ _ _ (k / Nn) hwvT (by omega) (by omega)
              (encWrite_orBits_testBit_ne Nn len msg T (k / Nn) (by omega)
                fun hT16 => by
                  have h0 : T / Nn = 0 := Nat.div_eq_of_lt (lt_of_lt_of_le hT16 hNn)
                  omega),
            hp]
          exact ihk
        · rw [applyWrite_getD_ne u _ (k % Nn) hp]
          exact ihk
      · have hkT' : k = T := by omega
        subst hkT'
        have heq : (applyWrite u (encWrite Nn len msg k)).getD (k % Nn) 0 =
            (u.getD (k % Nn) 0 &&& wrap_mask (k / Nn) |||
              (encWrite Nn len msg k).orBits) % 256 :=
          applyWrite_getD_self u _ hposlt
        rw [heq, show (256 : Nat) = 2 ^ 8 from rfl, Nat.testBit_mod_two_pow,
          Nat.testBit_or, Nat.testBit_and, testBit_wrap_mask _ _ hwvT]
        have horB : ((encWrite Nn len msg k).orBits).testBit (k / Nn) =
            frameBitB len msg k := by
          show (if k < 16 then frameBit len msg k
            else frameBit len msg k <<< (k / Nn)).testBit (k / Nn) = _
          by_cases hk16 : k < 16
          · rw [if_pos hk16, Nat.div_eq_of_lt (lt_of_lt_of_le hk16 hNn)]
            exact testBit_toNat_zero _
          · rw [if_neg hk16, Nat.testBit_shiftLeft]
            simp only [Nat.le_refl, decide_True, Nat.sub_self, Bool.true_and]
            exact testBit_toNat_zero _
        rw [horB]
        have hd8 : decide (k / Nn < 8) = true := by
          simp
          omega
        have hdne : decide (k / Nn ≠ k / Nn) = false := by simp
        rw [hd8, hdne]
        simp

theorem decodeLenBits_cons (g : Grid) (c : ChannelAccessor) (len i : Nat)
    (rest : List Nat) :
    decodeLenBits g c len (i :: rest) =
      decodeLenBits g (next_channel g c)
        (len ||| (get_channel g c &&& bitmask c.wraparounds) <<< (15 - i) % 65536)
        rest := rfl

theorem decodeByteBits_cons (g : Grid) (c : ChannelAccessor) (char_byte j : Nat)
    (rest : List Nat) :
    decodeByteBits g c char_byte (j :: rest) =
      decodeByteBits g (next_channel g c)
        (char_byte |||
          ((get_channel g c &&& bitmask c.wraparounds) >>> c.wraparounds) <<< (7 - j) % 256)
        rest := rfl

theorem decodeMsgChars_succ (g : Grid) (c : ChannelAccessor) (msg : List Nat) (n : Nat) :
    decodeMsgChars g c msg (n + 1) =
      decodeMsgChars (decodeByteBits g c 0 (List.range 8)).2.1
        (decodeByteBits g c 0 (List.range 8)).2.2
        (msg ++ [(decodeByteBits g c 0 (List.range 8)).1]) n := rfl

theorem decode_unfold (g : Grid) :
    decode g =
      decodeMsgChars (decodeLenBits g ChannelAccessor.init 0 (List.range 16)).2.1
        (decodeLenBits g ChannelAccessor.init 0 (List.range 16)).2.2 []
        (decodeLenBits g ChannelAccessor.init 0 (List.range 16)).1 := rfl

theorem decodeLenBits_grid (g : Grid) :
    ∀ (l : List Nat) (c : ChannelAccessor) (len : Nat),
      (decodeLenBits g c len l).2.1 = g := by
  intro l
  induction l with
  | nil => intro c len; rfl
  | cons i rest ih => intro c len; rw [decodeLenBits_cons]; exact ih _ _

theorem decodeByteBits_grid (g : Grid) :
    ∀ (l : List Nat) (c : ChannelAccessor) (b : Nat),
      (decodeByteBits g c b l).2.1 = g := by
  intro l
  induction l with
  | nil => intro c b; rfl
  | cons j rest ih => intro c b; rw [decodeByteBits_cons]; exact ih _ _

theorem decodeMsgChars_grid :
    ∀ (n : Nat) (g : Grid) (c : ChannelAccessor) (msg : List Nat),
      (decodeMsgChars g c msg n).2.1 = g := by
  intro n
  induction n with
  | zero => intro g c msg; rfl
  | succ n ih =>
      intro g c msg
      rw [decodeMsgChars_succ, ih, decodeByteBits_grid]

theorem decodeMsgChars_msg_length :
    ∀ (n : Nat) (g : Grid) (c : ChannelAccessor) (msg : List Nat),
      ((decodeMsgChars g c msg n).1).length = msg.length + n := by
  intro n
  induction n with
  | zero => intro g c msg; rfl
  | succ n ih =>
      intro g c msg
      rw [decodeMsgChars_succ, ih, List.length_append]
      simp
      omega

/-- The length loop of decode, positionally: it folds the raw masked reads
of steps j .. 15 into the accumulator, leaves the grid untouched and the
accessor at step 16. -/
theorem decodeLenBits_sim (g : Grid) (W H : Nat) (hW : 1 ≤ W) (hH : 1 ≤ H)
    (hwf : wfGrid g W H) :
    ∀ (n j acc : Nat), j + n = 16 →
      decodeLenBits g (cursorAt W H j) acc (List.range' j n) =
        (lenFold (flatten g) (3 * (W * H)) acc (List.range' j n), g, cursorAt W H 16) := by
  intro n
  induction n with
  | zero =>
      intro j acc hj
      have hj16 : j = 16 := by omega
      subst hj16
      rfl
  | succ n ih =>
      intro j acc hj
      have hgw : width g = W := width_of_wf g W H hwf hH
      have hgh : height g = H := hwf.1
      rw [List.range'_succ, decodeLenBits_cons,
        next_channel_cursorAt g W H j hW hH hgw hgh,
        get_channel_cursorAt g W H hwf hW hH j]
      show decodeLenBits g (cursorAt W H (j + 1))
          (acc ||| readLenBit (flatten g) (3 * (W * H)) j <<< (15 - j) % 65536)
          (List.range' (j + 1) n) = _
      rw [ih (j + 1) _ (by omega)]
      rfl

/-- The inner char loop of decode, positionally: it folds the normalized
reads of steps base + j .. base + 7 into the char accumulator, leaves the
grid untouched and the accessor at step base + 8. -/
theorem decodeByteBits_sim (g : Grid) (W H : Nat) (hW : 1 ≤ W) (hH : 1 ≤ H)
    (hwf : wfGrid g W H) (base : Nat) :
    ∀ (n j acc : Nat), j + n = 8 →
      decodeByteBits g (cursorAt W H (base + j)) acc (List.range' j n) =
        (byteFold (flatten g) (3 * (W * H)) base acc (List.range' j n), g,
          cursorAt W H (base + 8)) := by
  intro n
  induction n with
  | zero =>
      intro j acc hj
      have hj8 : j = 8 := by omega
      subst hj8
      rfl
  | succ n ih =>
      intro j acc hj
      have hgw : width g = W := width_of_wf g W H hwf hH
      have hgh : height g = H := hwf.1
      rw [List.range'_succ, decodeByteBits_cons,
        next_channel_cursorAt g W H (base + j) hW hH hgw hgh,
        get_channel_cursorAt g W H hwf hW hH (base + j)]
      have harg : base + j + 1 = base + (j + 1) := by omega
      rw [harg]
      show decodeByteBits g (cursorAt W H (base + (j + 1)))
          (acc ||| readMsgBit (flatten g) (3 * (W * H)) (base + j) <<< (7 - j) % 256)
          (List.range' (j + 1) n) = _
      rw [ih (j + 1) _ (by omega)]
      rfl

/-- The outer char loop of decode, positionally: starting at step 16 + 8·i
it appends one assembled char per remaining count, leaves the grid
untouched and the accessor just past the last bit read. -/
theorem decodeMsgChars_sim (g : Grid) (W H : Nat) (hW : 1 ≤ W) (hH : 1 ≤ H)
    (hwf : wfGrid g W H) :
    ∀ (n i : Nat) (acc : List Nat),
      decodeMsgChars g (cursorAt W H (16 + 8 * i)) acc n =
        (acc ++ (List.range n).map
            (fun t => byteValue (flatten g) (3 * (W * H)) (16 + 8 * (i + t))), g,
          cursorAt W H (16 + 8 * (i + n))) := by
  intro n
  induction n with
  | zero =>
      intro i acc
      simp only [List.range_zero, List.map_nil, List.append_nil, Nat.add_zero]
      rfl
  | succ n ih =>
      intro i acc
      rw [decodeMsgChars_succ]
      have hbyte := decodeByteBits_sim g W H hW hH hwf (16 + 8 * i) 8 0 0 (by omega)
      simp only [Nat.add_zero] at hbyte
      rw [← List.range_eq_range' 8] at hbyte
      rw [hbyte]
      show decodeMsgChars g (cursorAt W H (16 + 8 * i + 8))
          (acc ++ [byteFold (flatten g) (3 * (W * H)) (16 + 8 * i) 0 (List.range 8)]) n = _
      have harg : 16 + 8 * i + 8 = 16 + 8 * (i + 1) := by omega
      rw [harg, ih (i + 1) _]
      have hlist : (acc ++ [byteFold (flatten g) (3 * (W * H)) (16 + 8 * i) 0
            (List.range 8)]) ++
          (List.range n).map
            (fun t => byteValue (flatten g) (3 * (W * H)) (16 + 8 * (i + 1 + t))) =
          acc ++ (List.range (n + 1)).map
            (fun t => byteValue (flatten g) (3 * (W * H)) (16 + 8 * (i + t))) := by
        conv_rhs => rw [List.range_succ_eq_map, List.map_cons, List.map_map]
        rw [List.append_assoc]
        congr 1
        show byteFold (flatten g) (3 * (W * H)) (16 + 8 * i) 0 (List.range 8) ::
            (List.range n).map
              (fun t => byteValue (flatten g) (3 * (W * H)) (16 + 8 * (i + 1 + t))) =
          byteValue (flatten g) (3 * (W * H)) (16 + 8 * (i + 0)) ::
            (List.range n).map
              ((fun t => byteValue (flatten g) (3 * (W * H)) (16 + 8 * (i + t))) ∘ Nat.succ)
        congr 1
        apply List.map_congr_left
        intro t _
        simp only [Function.comp_apply]
        have harith : i + 1 + t = i + Nat.succ t := by omega
        rw [harith]
      rw [hlist]
      have harg2 : i + 1 + n = i + (n + 1) := by omega
      rw [harg2]

theorem bool_toNat_le_one (b : Bool) : b.toNat ≤ 1 := by cases b <;> decide

theorem shiftLeft_toNat_lt (b : Bool) (s n : Nat) (hs : s < n) : b.toNat <<< s < 2 ^ n := by
  rw [Nat.shiftLeft_eq]
  calc b.toNat * 2 ^ s ≤ 1 * 2 ^ s := Nat.mul_le_mul_right _ (bool_toNat_le_one b)
  _ = 2 ^ s := Nat.one_mul _
  _ < 2 ^ n := Nat.pow_lt_pow_right (by norm_num) hs

theorem testBit_foldl_or (l : List Nat) (t : Nat) :
    ∀ acc : Nat, (l.foldl (· ||| ·) acc).testBit t =
      (acc.testBit t || l.any fun x => x.testBit t) := by
  induction l with
  | nil => intro acc; simp
  | cons x xs ih =>
      intro acc
      show (xs.foldl (· ||| ·) (acc ||| x)).testBit t = _
      rw [ih (acc ||| x), Nat.testBit_or]
      simp [Bool.or_assoc]

/-- Folding n bits of a value back in, most significant first, rebuilds the
value: the shared shape of decode's length and char reassembly. -/
theorem orFold_reconstruct (n : Nat) (f : Nat → Nat) (val : Nat) (hval : val < 2 ^ n)
    (hf : ∀ j < n, f j = (Nat.testBit val (n - 1 - j)).toNat) :
    (List.range' 0 n).foldl (fun a j => a ||| f j <<< (n - 1 - j) % 2 ^ n) 0 = val := by
  apply Nat.eq_of_testBit_eq
  intro t
  have hfold : (List.range' 0 n).foldl (fun a j => a ||| f j <<< (n - 1 - j) % 2 ^ n) 0 =
      ((List.range' 0 n).map (fun j => f j <<< (n - 1 - j) % 2 ^ n)).foldl (· ||| ·) 0 :=
    (List.foldl_map _ _ _ _).symm
  rw [hfold, testBit_foldl_or, List.any_map, Bool.eq_iff_iff]
  simp only [Nat.zero_testBit, Bool.false_or, List.any_eq_true, List.mem_range'_1,
    Function.comp_apply]
  constructor
  · rintro ⟨j, ⟨_, hj⟩, hpred⟩
    simp only [Nat.zero_add] at hj
    rw [hf j hj, Nat.mod_eq_of_lt (shiftLeft_toNat_lt _ _ _ (by omega)),
      Nat.testBit_shiftLeft, Bool.and_eq_true] at hpred
    obtain ⟨h1, h2⟩ := hpred
    have hle : n - 1 - j ≤ t := of_decide_eq_true h1
    by_cases ht0 : t - (n - 1 - j) = 0
    · have ht : t = n - 1 - j := by omega
      rw [ht0, testBit_toNat_zero] at h2
      rw [ht]
      exact h2
    · rw [testBit_le_one _ _ (bool_toNat_le_one _) ht0] at h2
      exact absurd h2 (by simp)
  · intro hlt
    have htn : t < n := by
      by_contra hcon
      rw [Nat.testBit_lt_two_pow
        (lt_of_lt_of_le hval (Nat.pow_le_pow_right (by norm_num) (by omega)))] at hlt
      exact absurd hlt (by simp)
    refine ⟨n - 1 - t, ⟨by omega, by omega⟩, ?_⟩
    rw [hf (n - 1 - t) (by omega)]
    have h1 : n - 1 - (n - 1 - t) = t := by omega
    rw [h1, hlt, Nat.mod_eq_of_lt (shiftLeft_toNat_lt _ _ _ (by omega))]
    show ((1 : Nat) <<< t).testBit t = true
    rw [Nat.shiftLeft_eq, Nat.one_mul]
    exact Nat.testBit_two_pow_self

theorem lenFold_reconstruct (vs : List Nat) (Nn len : Nat) (hlen : len < 65536)
    (hread : ∀ k < 16, readLenBit vs Nn k = (Nat.testBit len (15 - k)).toNat) :
    lenFold vs Nn 0 (List.range' 0 16) = len :=
  orFold_reconstruct 16 (readLenBit vs Nn) len hlen hread

theorem byteFold_reconstruct (vs : List Nat) (Nn base byte : Nat) (hbyte : byte < 256)
    (hread : ∀ j < 8, readMsgBit vs Nn (base + j) = (Nat.testBit byte (7 - j)).toNat) :
    byteFold vs Nn base 0 (List.range' 0 8) = byte :=
  orFold_reconstruct 8 (fun j => readMsgBit vs Nn (base + j)) byte hbyte hread

theorem rowChannels_bytes (r : List Pixel)
    (hb : ∀ p ∈ r, p.red < 256 ∧ p.green < 256 ∧ p.blue < 256) :
    ∀ i, (rowChannels r).getD i 0 < 256 := by
  induction r with
  | nil => intro i; simp [rowChannels, List.getD]
  | cons p rest ih =>
      intro i
      obtain ⟨h1, h2, h3⟩ := hb p (by simp)
      rcases i with _ | _ | _ | j
      · exact h1
      · exact h2
      · exact h3
      · show (rowChannels rest).getD j 0 < 256
        exact ih (fun q hq => hb q (by simp [hq])) j

theorem flatten_bytes (g : Grid) (hb : byteGrid g) : ∀ p, (flatten g).getD p 0 < 256 := by
  induction g with
  | nil => intro p; simp [flatten, List.getD]
  | cons r rest ih =>
      intro p
      show (rowChannels r ++ flatten rest).getD p 0 < 256
      by_cases hp : p < (rowChannels r).length
      · rw [List.getD_append _ _ _ _ hp]
        exact rowChannels_bytes r (hb r (by simp)) p
      · rw [List.getD_append_right _ _ _ _ (Nat.le_of_not_lt hp)]
        exact ih (fun row h => hb row (by simp [h])) _

theorem div_le_two_of_lt (M k : Nat) (hM : 1 ≤ M) (hk : k < 8 * M) : k / (3 * M) ≤ 2 := by
  have h3 : 0 < 3 * M := by omega
  have := (Nat.div_lt_iff_lt_mul h3).mpr (show k < 3 * (3 * M) by omega)
  omega

/-- C2 (counterexample): at the concrete input the claim calls the accepted
boundary case, a 1-by-1 image and message length 1, the code's check_size
throws, although the claim's formula 16 + 8·len ≤ 3·8·width·height holds
(24 ≤ 24): the code compares against 8·width·height, not 3·8·width·height. -/
theorem C2_capacity_counterexample :
    (check_size 1 1 1).isSome = true ∧ 16 + 8 * 1 ≤ 3 * 8 * (1 * 1) := by
  decide

/-- C2 (amended): check_size computes required bits as 16 + 8·len and
available bits as 8·width·height (one bit per pixel-byte of the header
area, not 3·8·width·height), failing exactly when required exceeds
available or len exceeds 65535; in particular on a 1-by-1 image both a
length-1 and a length-2 message are rejected. -/
theorem C2_capacity_check :
    (∀ len W H : Nat,
        check_size len W H = none ↔ 8 * len + 16 ≤ 8 * (W * H) ∧ len ≤ 65535) ∧
      (check_size 1 1 1).isSome = true ∧ (check_size 2 1 1).isSome = true := by
  exact ⟨fun len W H => check_size_none_iff len W H, by decide, by decide⟩

/-- C5 (confirmed): when capacity validation fails, either because the
message with its 16-bit prefix does not fit the image's available bits or
because it is longer than 65535 bytes, the encode path surfaces an explicit
error: encodeRun returns Except.error without ever entering the traversal,
so no channel of the source grid is touched and no grid is produced for the
destination image. -/
theorem C5_no_mutation_on_failure (msg : List Nat) (g : Grid)
    (h : 8 * (width g * height g) < 8 * msg.length + 16 ∨ 65535 < msg.length) :
    ∃ e, encodeRun msg g = Except.error e := by
  unfold encodeRun
  rcases h' : check_size msg.length (width g) (height g) with _ | e
  · rw [check_size_none_iff] at h'
    omega
  · exact ⟨e, rfl⟩

/-- C5 witness: a length-2 message on a 1-by-1 image fails the capacity
check and encodeRun surfaces the error. -/
theorem C5_witness :
    ∃ e, encodeRun [1, 2] [[Pixel.mk 0 0 0]] = Except.error e :=
  C5_no_mutation_on_failure [1, 2] [[Pixel.mk 0 0 0]] (by decide)

/-- C6 (confirmed): for every plane index p in 0..7, wrap_mask p and
bitmask p partition the byte: their AND is 0, their OR is 0xFF, bitmask p
has only bit p set and wrap_mask p has every bit set except bit p. -/
theorem C6_bit_isolation (p : Nat) (h : p ≤ 7) :
    wrap_mask p &&& bitmask p = 0 ∧ (wrap_mask p ||| bitmask p) = 255 ∧
      bitmask p = 2 ^ p ∧ wrap_mask p = 255 - 2 ^ p := by
  interval_cases p <;> decide

/-- C6 witness: the masks at plane 5. -/
theorem C6_witness :
    wrap_mask 5 &&& bitmask 5 = 0 ∧ (wrap_mask 5 ||| bitmask 5) = 255 ∧
      bitmask 5 = 2 ^ 5 ∧ wrap_mask 5 = 255 - 2 ^ 5 :=
  C6_bit_isolation 5 (by decide)

/-- C8 (confirmed): every message of length at least 65536 is rejected with
an error before encoding, whatever the image dimensions: either the
capacity comparison or the explicit length bound fires in check_size. -/
theorem C8_oversize_rejected (msg : List Nat) (g : Grid) (h : 65536 ≤ msg.length) :
    ∃ e, encodeRun msg g = Except.error e := by
  unfold encodeRun
  rcases h' : check_size msg.length (width g) (height g) with _ | e
  · rw [check_size_none_iff] at h'
    omega
  · exact ⟨e, rfl⟩

/-- C8 witness: a message of 65536 zero bytes is rejected on a 1-by-1
image. -/
theorem C8_witness :
    ∃ e, encodeRun (List.replicate 65536 0) [[Pixel.mk 0 0 0]] = Except.error e :=
  C8_oversize_rejected (List.replicate 65536 0) [[Pixel.mk 0 0 0]]
    (by rw [List.length_replicate])

/-- C7 (confirmed): from a fresh accessor, exactly 3·width·height advances
return the position to (row 0, col 0, red) with the plane index incremented
from 0 to 1; moreover after any k advances the accessor sits at channel
k mod 3WH of plane k div 3WH, with the channels of a pixel visited in red,
green, blue order, then the next column, then the next row (the cursorAt
closed form). -/
theorem C7_wraparound_boundary (g : Grid) (W H : Nat) (hW : 1 ≤ W) (hH : 1 ≤ H)
    (hgw : width g = W) (hgh : height g = H) :
    (next_channel g)^[3 * (W * H)] ChannelAccessor.init =
        ChannelAccessor.mk 0 0 1 Color.RED ∧
      ∀ k, (next_channel g)^[k] ChannelAccessor.init = cursorAt W H k := by
  have hall := cursorAfter_eq g W H hW hH hgw hgh
  refine ⟨?_, hall⟩
  rw [hall]
  have hN : 0 < 3 * (W * H) := by
    have := Nat.mul_le_mul hW hH
    omega
  simp [cursorAt, Nat.mod_self, Nat.div_self hN, colorOf]

/-- C7 witness: on a 2-by-1 image, 6 advances reset the position and bump
the plane index to 1. -/
theorem C7_witness :
    (next_channel [[Pixel.mk 1 2 3, Pixel.mk 4 5 6]])^[6] ChannelAccessor.init =
      ChannelAccessor.mk 0 0 1 Color.RED :=
  (C7_wraparound_boundary [[Pixel.mk 1 2 3, Pixel.mk 4 5 6]] 2 1 (by decide) (by decide)
    rfl rfl).1

/-- C10 (confirmed): under the implemented capacity check (16 + 8·len ≤
8·width·height), at every step k of the encode traversal, which visits
16 + 8·len channel-bits, the accessor's wraparound count k div 3WH is at
most 2, so the plane index stays within 0..7 and wrap_mask is never called
outside its domain on the encode path. -/
theorem C10_wraparounds_at_most_two (msg : List Nat) (g : Grid) (W H : Nat)
    (hW : 1 ≤ W) (hH : 1 ≤ H) (hgw : width g = W) (hgh : height g = H)
    (hcheck : check_size msg.length W H = none) :
    ∀ k ≤ 16 + 8 * msg.length,
      ((next_channel g)^[k] ChannelAccessor.init).wraparounds ≤ 2 := by
  intro k hk
  rw [cursorAfter_eq g W H hW hH hgw hgh]
  show k / (3 * (W * H)) ≤ 2
  rw [check_size_none_iff] at hcheck
  have hWH : 1 ≤ W * H := Nat.mul_le_mul hW hH
  have h8 : k ≤ 8 * (W * H) := by omega
  have h9 : 8 * (W * H) = 2 * (W * H) + 3 * (W * H) * 2 := by ring
  calc k / (3 * (W * H)) ≤ 8 * (W * H) / (3 * (W * H)) := Nat.div_le_div_right h8
    _ = 2 := by
        rw [h9, Nat.add_mul_div_left _ _ (by omega : 0 < 3 * (W * H)),
          Nat.div_eq_of_lt (by omega)]

/-- C10 witness: the empty message on a 2-by-1 image passes the check and
after 6 of its 16 steps the wraparound count is within bound. -/
theorem C10_witness :
    ((next_channel [[Pixel.mk 1 2 3, Pixel.mk 4 5 6]])^[6]
        ChannelAccessor.init).wraparounds ≤ 2 :=
  C10_wraparounds_at_most_two [] [[Pixel.mk 1 2 3, Pixel.mk 4 5 6]] 2 1 (by decide)
    (by decide) rfl rfl (by decide) 6 (by decide)

/-- C4 (confirmed): for every accepted message and well-formed byte grid,
encode changes at most the bits the cursor targets, that is the pairs
(channel k mod 3WH, plane k div 3WH) for the 16 + 8·len steps k; every
other bit of every channel keeps its original value, and the accessor ends
just past the last bit written, at the cursorAt closed form of step
16 + 8·len. -/
theorem C4_encode_frame (msg : List Nat) (g : Grid) (W H : Nat)
    (hW : 1 ≤ W) (hH : 1 ≤ H) (hwf : wfGrid g W H) (hbytes : byteGrid g)
    (hcheck : check_size msg.length W H = none) :
    (∀ p b : Nat,
        (∀ k < 16 + 8 * msg.length,
          ¬(p = k % (3 * (W * H)) ∧ b = k / (3 * (W * H)))) →
        Nat.testBit (chanAt (encode msg g).1 p) b = Nat.testBit (chanAt g p) b) ∧
      (encode msg g).2 = cursorAt W H (16 + 8 * msg.length) := by
  obtain ⟨h1, _, h3⟩ := encode_sim msg g W H hW hH hwf
  rw [check_size_none_iff] at hcheck
  have hWH : 1 ≤ W * H := Nat.mul_le_mul hW hH
  have hflen : (flatten g).length = 3 * (W * H) := by
    rw [flatten_length g W hwf.2, hwf.1]
  have hw7 : ∀ k < 16 + 8 * msg.length, k / (3 * (W * H)) ≤ 7 := fun k hk =>
    le_trans (div_le_two_of_lt (W * H) k hWH (by omega)) (by norm_num)
  refine ⟨?_, h3⟩
  intro p b hunt
  show ((flatten (encode msg g).1).getD p 0).testBit b = _
  rw [h1, ← encWrites_eq (3 * (W * H)) (msg.length % 65536) msg]
  exact (applyWrites_frame (3 * (W * H)) (msg.length % 65536) msg (flatten g)
    (by omega) (le_of_eq hflen.symm) (flatten_bytes g hbytes)
    (16 + 8 * msg.length) hw7).2 p b hunt

/-- C4 witness: encoding the empty message on a 2-by-1 image leaves the
untargeted bit (channel 0, plane 3) unchanged. -/
theorem C4_witness :
    Nat.testBit (chanAt (encode [] [[Pixel.mk 1 2 3, Pixel.mk 4 5 6]]).1 0) 3 =
      Nat.testBit (chanAt [[Pixel.mk 1 2 3, Pixel.mk 4 5 6]] 0) 3 :=
  (C4_encode_frame [] [[Pixel.mk 1 2 3, Pixel.mk 4 5 6]] 2 1 (by decide) (by decide)
    (by unfold wfGrid; exact ⟨by decide, by decide⟩)
    (by unfold byteGrid; decide) (by decide)).1 0 3 (by decide)

/-- C1 (amended, proved): for every message of at most 65535 bytes and
every well-formed grid that passes the implemented capacity check and
whose first wraparound holds the whole 16-bit length field
(16 ≤ 3·width·height), decoding the encoded grid returns exactly the
message. -/
theorem C1_round_trip (msg : List Nat) (g : Grid) (W H : Nat)
    (hW : 1 ≤ W) (hH : 1 ≤ H) (hwf : wfGrid g W H)
    (hmsg : ∀ b ∈ msg, b < 256)
    (hcheck : check_size msg.length W H = none)
    (h16 : 16 ≤ 3 * (W * H)) :
    (decode (encode msg g).1).1 = msg := by
  obtain ⟨h1, h2, _⟩ := encode_sim msg g W H hW hH hwf
  rw [check_size_none_iff] at hcheck
  have hWH : 1 ≤ W * H := Nat.mul_le_mul hW hH
  have hlen' : msg.length % 65536 = msg.length := Nat.mod_eq_of_lt (by omega)
  have hflen : (flatten g).length = 3 * (W * H) := by
    rw [flatten_length g W hwf.2, hwf.1]
  have hw7 : ∀ k < 16 + 8 * msg.length, k / (3 * (W * H)) ≤ 7 := fun k hk =>
    le_trans (div_le_two_of_lt (W * H) k hWH (by omega)) (by norm_num)
  have henc : flatten (encode msg g).1 =
      applyWrites (flatten g)
        (encWrites (3 * (W * H)) (msg.length % 65536) msg (16 + 8 * msg.length)) := by
    rw [h1, encWrites_eq]
  have hbits : ∀ k < 16 + 8 * msg.length,
      ((flatten (encode msg g).1).getD (k % (3 * (W * H))) 0).testBit
        (k / (3 * (W * H))) = frameBitB (msg.length % 65536) msg k := by
    intro k hk
    rw [henc]
    exact applyWrites_bits (3 * (W * H)) (msg.length % 65536) msg (flatten g) h16
      (le_of_eq hflen.symm) (16 + 8 * msg.length) hw7 k hk
  have hlenloop : decodeLenBits (encode msg g).1 ChannelAccessor.init 0 (List.range 16) =
      (msg.length, (encode msg g).1, cursorAt W H 16) := by
    have hs := decodeLenBits_sim (encode msg g).1 W H hW hH h2 16 0 0 (by omega)
    rw [cursorAt_zero] at hs
    rw [show List.range 16 = List.range' 0 16 from List.range_eq_range' 16, hs]
    have hrec : lenFold (flatten (encode msg g).1) (3 * (W * H)) 0 (List.range' 0 16) =
        msg.length := by
      apply lenFold_reconstruct _ _ _ (by omega)
      intro k hk
      have hkdiv : k / (3 * (W * H)) = 0 := Nat.div_eq_of_lt (by omega)
      have hb := hbits k (by omega)
      rw [hkdiv] at hb
      have hfb : frameBitB (msg.length % 65536) msg k = Nat.testBit msg.length (15 - k) := by
        unfold frameBitB
        rw [if_pos hk, hlen']
      show (flatten (encode msg g).1).getD (k % (3 * (W * H))) 0 &&&
        bitmask (k / (3 * (W * H))) = (Nat.testBit msg.length (15 - k)).toNat
      rw [hkdiv]
      show (flatten (encode msg g).1).getD (k % (3 * (W * H))) 0 &&& 1 = _
      rw [← hfb, ← hb, toNat_testBit, Nat.shiftRight_zero]
    rw [hrec]
  rw [decode_unfold, hlenloop]
  have hchars := decodeMsgChars_sim (encode msg g).1 W H hW hH h2 msg.length 0 []
  simp only [Nat.mul_zero, Nat.add_zero, Nat.zero_add] at hchars
  rw [hchars]
  show [] ++ (List.range msg.length).map
      (fun t => byteValue (flatten (encode msg g).1) (3 * (W * H)) (16 + 8 * t)) = msg
  rw [List.nil_append]
  apply List.ext_getElem
  · simp
  · intro i hi1 hi2
    simp only [List.getElem_map, List.getElem_range]
    have hi : i < msg.length := hi2
    show byteValue (flatten (encode msg g).1) (3 * (W * H)) (16 + 8 * i) = msg[i]
    have hgd : msg.getD i 0 = msg[i] := by
      simp [List.getD, List.getElem?_eq_getElem hi]
    have hmem : msg[i] < 256 := hmsg _ (List.getElem_mem hi)
    show byteFold (flatten (encode msg g).1) (3 * (W * H)) (16 + 8 * i) 0
      (List.range 8) = msg[i]
    rw [show List.range 8 = List.range' 0 8 from List.range_eq_range' 8]
    apply byteFold_reconstruct _ _ _ _ hmem
    intro j hj
    have hk : 16 + 8 * i + j < 16 + 8 * msg.length := by omega
    have hw : (16 + 8 * i + j) / (3 * (W * H)) ≤ 7 := hw7 _ hk
    have hb := hbits (16 + 8 * i + j) hk
    have hfb : frameBitB (msg.length % 65536) msg (16 + 8 * i + j) =
        Nat.testBit msg[i] (7 - j) := by
      unfold frameBitB
      rw [if_neg (by omega)]
      have hdi : (16 + 8 * i + j - 16) / 8 = i := by omega
      have hmj : (16 + 8 * i + j - 16) % 8 = j := by omega
      rw [hdi, hmj, hgd]
    show ((flatten (encode msg g).1).getD ((16 + 8 * i + j) % (3 * (W * H))) 0 &&&
        bitmask ((16 + 8 * i + j) / (3 * (W * H)))) >>>
          ((16 + 8 * i + j) / (3 * (W * H))) = _
    rw [bitmask_eq _ hw, Nat.and_two_pow, hb, hfb, Nat.shiftRight_eq_div_pow,
      Nat.mul_div_cancel _ (Nat.pos_pow_of_pos _ (by norm_num))]

/-- C1 witness: the message [104, 105] round-trips on a 3-by-2 grid. -/
theorem C1_witness :
    (decode (encode [104, 105]
        [[Pixel.mk 10 20 30, Pixel.mk 40 50 60, Pixel.mk 70 80 90],
         [Pixel.mk 100 110 120, Pixel.mk 130 140 150, Pixel.mk 160 170 180]]).1).1 =
      [104, 105] :=
  C1_round_trip [104, 105]
    [[Pixel.mk 10 20 30, Pixel.mk 40 50 60, Pixel.mk 70 80 90],
     [Pixel.mk 100 110 120, Pixel.mk 130 140 150, Pixel.mk 160 170 180]] 3 2
    (by decide) (by decide) (by unfold wfGrid; exact ⟨by decide, by decide⟩)
    (by decide) (by decide) (by decide)

/-- C1 (counterexample): the 3-by-1 all-zero grid passes the capacity check
for the one-byte message [0] (24 required bits, 24 available by the code's
formula), yet decode of the encoded grid does not return [0]: the last
length bit lands in wraparound 1 where encode ORs it into bit 0 under a
mask that clears bit 1, so decode reads back length 512 instead of 1. -/
theorem C1_counterexample :
    check_size ([0] : List Nat).length
        (width [[Pixel.mk 0 0 0, Pixel.mk 0 0 0, Pixel.mk 0 0 0]])
        (height [[Pixel.mk 0 0 0, Pixel.mk 0 0 0, Pixel.mk 0 0 0]]) = none ∧
      (decode (encode [0] [[Pixel.mk 0 0 0, Pixel.mk 0 0 0, Pixel.mk 0 0 0]]).1).1 ≠
        [0] := by
  decide

/-- C9 (confirmed): decode threads the grid through unchanged: only
get_channel reads and accessor advances happen, never a channel write, so
the grid decode returns is the grid it was given. -/
theorem C9_decode_read_only (g : Grid) : (decode g).2.1 = g := by
  rw [decode_unfold, decodeMsgChars_grid, decodeLenBits_grid]

/-- C3 (amended, proved): after reading the 16-bit length field decode
performs no re-validation at all: whatever length the field declares, even
one whose bits exceed what 8 wraparounds over the image provide, decode
proceeds to assemble exactly that many message bytes (reads past plane 7
yield zero bits through the fall-through bitmask), and no error path
exists. -/
theorem C3_no_revalidation (g : Grid) :
    ((decode g).1).length =
      (decodeLenBits g ChannelAccessor.init 0 (List.range 16)).1 := by
  rw [decode_unfold, decodeMsgChars_msg_length]
  simp

/-- C3 (counterexample): a 2-by-1 image passes the decode constructor's
check; its channel bits declare length 8, which needs 16 + 64 = 80 bits
while 8 wraparounds provide only 3·8·2 = 48, yet decode assembles all 8
bytes instead of failing. -/
theorem C3_counterexample :
    check_size 0 (width [[Pixel.mk 0 0 4, Pixel.mk 0 0 0]])
        (height [[Pixel.mk 0 0 4, Pixel.mk 0 0 0]]) = none ∧
      (decodeLenBits [[Pixel.mk 0 0 4, Pixel.mk 0 0 0]] ChannelAccessor.init 0
          (List.range 16)).1 = 8 ∧
      ((decode [[Pixel.mk 0 0 4, Pixel.mk 0 0 0]]).1).length = 8 ∧
      3 * 8 * (2 * 1) < 16 + 8 * 8 := by
  decide

end EasyLSB
